import Mathlib

/-!
Verification of the three compression codecs of this repository
(`src/lzw.py`, `src/lz77.py`, `src/huffman.py`) against its
natural-language specification.

Bytes are modelled as `Nat` (Python guarantees `0 ≤ b < 256` for real byte
strings; theorems add that bound as a hypothesis only where the code itself
depends on it, e.g. `bytes(...)` serialization).  Python code that can raise
an exception is modelled with `Option`: `none` is an uncaught exception.
Python integers are unbounded, as are `Nat`s; `struct.pack` width limits are
modelled explicitly (`pack4`).

All codecs operate on `raw_data.encode("utf-8")`; the models work at that
byte level.  UTF-8 encoding is injective, so byte-level round-trips are
equivalent to the string-level round-trips of the Python entry points.
-/

namespace S2P

/-! ## Shared helpers -/

/-- First-occurrence deduplication worker. -/
def dedupGo : List Nat → List Nat → List Nat
  | [], _ => []
  | a :: r, seen => if a ∈ seen then dedupGo r seen else a :: dedupGo r (a :: seen)

/-- The distinct values of a list.  Models `list(set(xs))` in
`LZW.compress`: CPython's iteration order over a set of small ints is
implementation-defined; the model fixes first-occurrence order.  Every
theorem below is insensitive to this order (the seed bytes are carried
verbatim inside the payload and replayed from there). -/
def dedupFirst (l : List Nat) : List Nat := dedupGo l []

/-- Normalize a Python slice bound: negative indices count from the end,
and bounds clamp to `[0, len]`. -/
def pyBound (len : Nat) (i : Int) : Nat :=
  if i < 0 then ((len : Int) + i).toNat else min i.toNat len

/-- Python slice `l[a:b]` (step 1). -/
def pySlice (a b : Int) (l : List Nat) : List Nat :=
  (l.take (pyBound l.length b)).drop (pyBound l.length a)

/-- `bytes(islice(cycle(part), n))`: the first `n` elements of the infinite
cyclic repetition of `part` (empty when `part` is empty, matching
`itertools.cycle` of an empty iterable). -/
def cycleTake (n : Nat) (part : List Nat) : List Nat :=
  if part.length = 0 then []
  else (List.range n).map (fun j => part.getD (j % part.length) 0)

/-- Little-endian 4-byte encoding of `v` (`struct.pack("I", v)`), assuming
`v < 2^32`. -/
def le4 (v : Nat) : List Nat :=
  [v % 256, v / 256 % 256, v / 65536 % 256, v / 16777216 % 256]

/-- Big-endian 4-byte encoding of `v` (`struct.pack(">I", v)`), assuming
`v < 2^32`. -/
def be4 (v : Nat) : List Nat :=
  [v / 16777216 % 256, v / 65536 % 256, v / 256 % 256, v % 256]

/-- `struct.pack("I", v)`: fails (`struct.error`) when `v ≥ 2^32`. -/
def pack4 (v : Nat) : Option (List Nat) :=
  if v < 4294967296 then some (le4 v) else none

/-- `struct.pack(">I", v)`: fails (`struct.error`) when `v ≥ 2^32`. -/
def pack4be (v : Nat) : Option (List Nat) :=
  if v < 4294967296 then some (be4 v) else none

/-- `struct.unpack("I", l[:4])`: fails when fewer than 4 bytes are
available. -/
def readU32LE (l : List Nat) : Option Nat :=
  match l with
  | a :: b :: c :: d :: _ => some (a + 256 * b + 65536 * c + 16777216 * d)
  | _ => none

/-- Big-endian reassembly of four bytes (`struct.unpack(">I", ...)`). -/
def unBE4 (a b c d : Nat) : Nat := ((a * 256 + b) * 256 + c) * 256 + d

/-! ## LZW (`src/lzw.py`) -/

/-- First index of `x` in `d` (`list.index`); `none` models the
`ValueError` raised when `x` is absent. -/
def idxOf4 : List (List Nat) → List Nat → Option Nat
  | [], _ => none
  | e :: r, x => if e = x then some 0 else (idxOf4 r x).map (· + 1)

/-- The loop body of `LZW.find_longest_prefix`: grow the candidate by one
byte at a time; on the first extension not in the dictionary return the
index of the previous candidate, and when the sequence is exhausted return
the index of the full candidate. -/
def flpGo (d : List (List Nat)) (pfx : List Nat) : List Nat → Option Nat
  | [] => idxOf4 d pfx
  | c :: rest => if (pfx ++ [c]) ∈ d then flpGo d (pfx ++ [c]) rest else idxOf4 d pfx

/-- `LZW.find_longest_prefix(dictionary, sequence)`. -/
def findLongestPref (d : List (List Nat)) (seq : List Nat) : Option Nat :=
  flpGo d [] seq

/-- One iteration of the `LZW.compress` while-loop: find the longest
dictionary match of the remaining input, and append `match + next byte`
when input remains after consuming it.  Returns the emitted code, the new
position and the new dictionary.  (The `prefix_id == -1` check in the
source is dead code: `find_longest_prefix` either returns a real index or
raises.) -/
def lzwStep (X : List Nat) (i : Nat) (dict : List (List Nat)) :
    Option (Nat × Nat × List (List Nat)) :=
  match findLongestPref dict (X.drop i) with
  | none => none
  | some pid =>
    match dict[pid]? with
    | none => none
    | some pfx =>
      some (pid, i + pfx.length,
        if i + pfx.length < X.length then dict ++ [pfx ++ [X.getD (i + pfx.length) 0]]
        else dict)

/-- The `LZW.compress` while-loop, producing the list of emitted codes.
Fuel-indexed; `lzwCompress` supplies `|X| + 1` which is always enough
because each step consumes at least one input byte. -/
def lzwLoop (X : List Nat) : Nat → Nat → List (List Nat) → Option (List Nat)
  | 0, _, _ => none
  | fuel + 1, i, dict =>
    if i < X.length then
      match lzwStep X i dict with
      | none => none
      | some (pid, i', d') =>
        match lzwLoop X fuel i' d' with
        | none => none
        | some rest => some (pid :: rest)
    else some []

/-- Serialization of the code list: `struct.pack(">I", c)` concatenated
for each code `c`. -/
def packCodes : List Nat → Option (List Nat)
  | [] => some []
  | c :: r =>
    match pack4be c with
    | none => none
    | some b =>
      match packCodes r with
      | none => none
      | some rest => some (b ++ rest)

/-- `LZW.compress` on the raw byte sequence: seed the dictionary with the
distinct input bytes, run the matching loop, then serialize as
`u32le(len(seed)) ++ seed ++ u32le(len(codeBytes)) ++ codeBytes`. -/
def lzwCompress (X : List Nat) : Option (List Nat) :=
  let sd := dedupFirst X
  match lzwLoop X (X.length + 1) 0 (sd.map (fun b => [b])) with
  | none => none
  | some codes =>
    match packCodes codes with
    | none => none
    | some cbytes =>
      match pack4 sd.length, pack4 cbytes.length with
      | some h1, some h2 => some (h1 ++ sd ++ h2 ++ cbytes)
      | _, _ => none

/-- The code-reading loop of `LZW.decompress`:
`for i in range(8+sds, 8+sds+cs, 4): unpack(">I", data[i:i+4])`; each
4-byte slice must be complete or `struct.unpack` raises. -/
def lzwReadCodes (p : List Nat) : Nat → Nat → Option (List Nat)
  | _, 0 => some []
  | start, cnt + 1 =>
    match (p.drop start).take 4 with
    | [a, b, c, d] => (lzwReadCodes p (start + 4) cnt).map (fun r => unBE4 a b c d :: r)
    | _ => none

/-- Header/seed/code parsing of `LZW.decompress` (source lines 107–115). -/
def lzwParsePayload (p : List Nat) : Option (List Nat × List Nat) :=
  match readU32LE p with
  | none => none
  | some sds =>
    match readU32LE (p.drop (4 + sds)) with
    | none => none
    | some cs =>
      match lzwReadCodes p (8 + sds) ((cs + 3) / 4) with
      | none => none
      | some codes => some ((p.drop 4).take sds, codes)

/-- The dictionary-replay loop of `LZW.decompress` (source lines 117–126):
for each code after the first, extend the dictionary with
`dict[prev] + [dict[c][0]]` when `c` is already known, and with
`dict[prev] + [dict[prev][0]]` (then emit it) when `c` is the
not-yet-transmitted entry. -/
def lzwReplay : List Nat → Nat → List (List Nat) → Option (List Nat)
  | [], _, _ => some []
  | c :: rest, prv, dict =>
    if c < dict.length then
      match dict[prv]?, dict[c]? with
      | some pe, some ce =>
        match ce.head? with
        | none => none
        | some h0 =>
          match lzwReplay rest c (dict ++ [pe ++ [h0]]) with
          | none => none
          | some tl => some (ce ++ tl)
      | _, _ => none
    else
      match dict[prv]? with
      | none => none
      | some pe =>
        match pe.head? with
        | none => none
        | some h0 =>
          match lzwReplay rest c (dict ++ [pe ++ [h0]]) with
          | none => none
          | some tl => some ((pe ++ [h0]) ++ tl)

/-- `LZW.decompress`, at the byte level (the final
`bytes(...).decode("utf-8")` string wrapper is outside the model). -/
def lzwDecompress (p : List Nat) : Option (List Nat) :=
  match lzwParsePayload p with
  | none => none
  | some (sd, codes) =>
    let dict := sd.map (fun b => [b])
    match codes with
    | [] => none
    | c0 :: rest =>
      match dict[c0]? with
      | none => none
      | some first =>
        match lzwReplay rest c0 dict with
        | none => none
        | some tl => some (first ++ tl)

/-- States of the `LZW.compress` loop reachable from the seeded start
state: position 0 with one singleton dictionary entry per distinct input
byte, closed under `lzwStep`. -/
inductive LzwReach (X : List Nat) : Nat → List (List Nat) → Prop where
  | base : LzwReach X 0 ((dedupFirst X).map (fun b => [b]))
  | step {i d pid i' d'} : LzwReach X i d → lzwStep X i d = some (pid, i', d') →
      LzwReach X i' d'

/-! ## LZ77 (`src/lz77.py`) -/

/-- The inner `for length in range(self.lookahead_size)` loop of
`LZ77._find_match`, at loop variable `l` with `k` range values left
(`k = la - l` at every real call).  Mirrors Python's for-variable
semantics: breaking at `l` leaves `length = l`, while running the loop to
completion leaves `length = la - 1` (one less than the number of matching
bytes in a full run).  Note the precedence of the window index:
`i + (l % (|buf| - i))`. -/
def lz77MatchLenGo (buf X : List Nat) (i pos la : Nat) : Nat → Nat → Nat
  | _, 0 => la - 1
  | l, k + 1 =>
    if X.length ≤ pos + l then l
    else if buf.getD (i + l % (buf.length - i)) 0 ≠ X.getD (pos + l) 0 then l
    else lz77MatchLenGo buf X i pos la (l + 1) k

/-- The match length reported for window start `i`: the inner loop run
from `length = 0` over `range(la)`. -/
def lz77MatchLen (buf X : List Nat) (i pos la : Nat) : Nat :=
  lz77MatchLenGo buf X i pos la 0 la

/-- The `possible_matches` list of `LZ77._find_match`: for each window
start `i` whose byte equals `input[position]`, the pair
`(len(buffer) - i - 1, length)`, in scan order. -/
def lz77Candidates (buf X : List Nat) (pos la : Nat) : List (Nat × Nat) :=
  (List.range buf.length).filterMap (fun i =>
    if buf.getD i 0 = X.getD pos 0 then
      some (buf.length - i - 1, lz77MatchLen buf X i pos la)
    else none)

/-- `max(possible_matches, key=lambda x: x[1])`: Python's `max` keeps the
first element among ties, i.e. replaces the running best only on a
strictly greater key. -/
def listMaxBySnd (m : Nat × Nat) (ms : List (Nat × Nat)) : Nat × Nat :=
  ms.foldl (fun b x => if b.2 < x.2 then x else b) m

/-- `LZ77._find_match(position)`: longest match (first-scanned wins ties),
with the end-of-input adjustment that shortens the match by one byte when
it would reach the input's end, and the `(0, 0, literal)` fallback when no
window byte matches. -/
def lz77FindMatch (buf X : List Nat) (pos la : Nat) : Nat × Nat × Nat :=
  match lz77Candidates buf X pos la with
  | [] => (0, 0, X.getD pos 0)
  | m :: ms =>
    let longest := listMaxBySnd m ms
    if X.length = pos + longest.2 then
      (longest.1, longest.2 - 1, X.getD (X.length - 1) 0)
    else
      (longest.1, longest.2, X.getD (pos + longest.2) 0)

/-- The `LZ77.compress` while-loop: emit a token, append the consumed run
plus literal to the window, truncate the window to its last `bs` bytes
(`self._buffer[-self.buffer_size:]`) once it exceeds `bs`.  Fuel-indexed:
every iteration consumes at least one input byte, so the `|X|` fuel
supplied by `lz77Compress` never runs out before the position reaches the
input's end. -/
def lz77CompressGo (bs ls : Nat) (X : List Nat) : Nat → Nat → List Nat →
    List (Nat × Nat × Nat)
  | 0, _, _ => []
  | fuel + 1, i, buf =>
    if i < X.length then
      let t := lz77FindMatch buf X i ls
      let b := buf ++ (X.drop i).take (t.2.1 + 1)
      let buf' := if bs < b.length then pySlice (-(bs : Int)) (b.length : Int) b else b
      t :: lz77CompressGo bs ls X fuel (i + t.2.1 + 1) buf'
    else []

/-- `LZ77.compress()` with window parameters `bs = buffer_size` and
`ls = lookahead_size`, starting from the fresh instance's empty buffer. -/
def lz77Compress (bs ls : Nat) (X : List Nat) : List (Nat × Nat × Nat) :=
  lz77CompressGo bs ls X X.length 0 []

/-- `bytes(item for sublist in tokens for item in sublist)` from
`compress_and_set`: flattens the 3-tuples; `bytes()` raises `ValueError`
when any component exceeds 255. -/
def lz77Serialize (ts : List (Nat × Nat × Nat)) : Option (List Nat) :=
  if ts.all (fun t => t.1 < 256 && t.2.1 < 256 && t.2.2 < 256) then
    some ((ts.map (fun t => [t.1, t.2.1, t.2.2])).flatten)
  else none

/-- Split the compressed byte stream into 3-byte records
(`for i in range(0, len(data), 3)`); a trailing 1- or 2-byte record makes
the `offset, length, char = code` unpacking raise. -/
def lz77Chunks3 : List Nat → Option (List (Nat × Nat × Nat))
  | [] => some []
  | a :: b :: c :: rest => (lz77Chunks3 rest).map (fun r => (a, b, c) :: r)
  | _ => none

/-- The `LZ77.decompress` token loop: for each `(offset, length, char)`
copy `length` bytes cyclically from
`decompressed[-offset-1 : len(decompressed)-offset-1+length]` and append
the literal. -/
def lz77DecompressCore : List (Nat × Nat × Nat) → List Nat → List Nat
  | [], acc => acc
  | (o, l, c) :: rest, acc =>
    let part := pySlice (-(o : Int) - 1) ((acc.length : Int) - (o : Int) - 1 + (l : Int)) acc
    lz77DecompressCore rest (acc ++ cycleTake l part ++ [c])

/-- `LZ77.decompress()` on the serialized byte stream. -/
def lz77Decompress (p : List Nat) : Option (List Nat) :=
  (lz77Chunks3 p).map (fun ts => lz77DecompressCore ts [])

/-- Worker for `lz77GreedyLen`, with fuel `k` (any `k ≥ |X| + 1 - pos - l`
computes the true greedy length, because the condition forces
`pos + l < |X|`). -/
def lz77GreedyGo (buf X : List Nat) (i pos : Nat) : Nat → Nat → Nat
  | l, 0 => l
  | l, k + 1 =>
    if pos + l < X.length ∧ buf.getD (i + l % (buf.length - i)) 0 = X.getD (pos + l) 0 then
      lz77GreedyGo buf X i pos (l + 1) k
    else l

/-- Modelled from the spec's reading of `_find_match` ("extend `length` up
to `lookahead_size` while `window[(i + length) mod (|window| - i)] ==
input[position + length]`"): the uncapped greedy match length starting at
`l`, i.e. the least index at which the extension condition first fails. -/
def lz77GreedyLen (buf X : List Nat) (i pos l : Nat) : Nat :=
  lz77GreedyGo buf X i pos l (X.length + 1 - (pos + l))

/-! ## Huffman (`src/huffman.py`)

Symbols are characters of the message, modelled as `Nat` code points; a
node's `symbol` string is a `List Nat`.  Python stores the probability
`count / len(message)` as a float and sorts nodes by it; since every
probability in one call shares the denominator `len(message)`, comparing
probabilities is comparing counts, so the model stores the integer count
as the node weight `w`.  (IEEE doubles preserve this order and its ties
exactly for any message shorter than 2^52 characters; the concrete
messages evaluated below have power-of-two lengths, where the float
arithmetic is exact.) -/

/-- A Huffman node.  `Node.left`/`Node.right` being `None` in Python is the
`leaf` constructor; built internal nodes always carry both children. -/
inductive HNode where
  | leaf (sym : List Nat) (w : Nat)
  | node (sym : List Nat) (w : Nat) (l r : HNode)
  deriving DecidableEq, Repr

/-- The `symbol` attribute. -/
def HNode.sym : HNode → List Nat
  | .leaf s _ => s
  | .node s _ _ _ => s

/-- The node weight: the occurrence count standing for the stored
probability `count / len(message)`. -/
def HNode.w : HNode → Nat
  | .leaf _ w => w
  | .node _ w _ _ => w

/-- `find_probabilities(message)`: keys in first-occurrence order (Python
dict insertion order), each mapped to its count (standing for
`count / len(message)`). -/
def findProbs (msg : List Nat) : List (Nat × Nat) :=
  (dedupFirst msg).map (fun c => (c, msg.count c))

/-- Insert a node into a weight-sorted list, before the first node of
strictly greater weight — the insertion step of a stable insertion sort. -/
def hinsert (x : HNode) : List HNode → List HNode
  | [] => [x]
  | y :: ys => if x.w ≤ y.w then x :: y :: ys else y :: hinsert x ys

/-- Stable ascending sort by node weight.  Models Python's stable `sorted`
with `key=lambda x: x.prob`: a stable sort's output is uniquely determined
by the key order (ties keep their relative order), so this structural
insertion sort computes exactly the list `sorted(nodes, ...)` does. -/
def hsort : List HNode → List HNode
  | [] => []
  | x :: xs => hinsert x (hsort xs)

/-- The tree-building while-loop of `Huffman.encode`: stable-sort the
working list by probability, merge the two smallest as
`Node(symbol=right.symbol+left.symbol, prob=right.prob+left.prob,
left=left, right=right)` where `right` is `nodes[0]` and `left` is
`nodes[1]`, append the merged node and remove the two.  Fuel-indexed: each
merge shrinks the list by one and the loop stops below two nodes, so the
initial length (supplied by `huffBuild`) is always enough fuel. -/
def huffLoopF : Nat → List HNode → List HNode
  | 0, nodes => nodes
  | f + 1, nodes =>
    match hsort nodes with
    | r :: l :: rest => huffLoopF f (rest ++ [HNode.node (r.sym ++ l.sym) (r.w + l.w) l r])
    | s => s

/-- `nodes[0]` of the merged list (`none` is the `IndexError` raised on an
empty message). -/
def huffBuild (nodes : List HNode) : Option HNode :=
  (huffLoopF nodes.length nodes).head?

/-- The code table: symbol string to bit string, insertion-ordered like a
Python dict. -/
abbrev HTable := List (List Nat × List Bool)

/-- Python dict assignment `dct[k] = v`: overwrite in place, or append. -/
def dictInsert (t : HTable) (k : List Nat) (v : List Bool) : HTable :=
  if t.any (fun p => p.1 = k) then t.map (fun p => if p.1 = k then (k, v) else p)
  else t ++ [(k, v)]

/-- Python dict lookup (`none` is a `KeyError`). -/
def hlookup (t : HTable) (k : List Nat) : Option (List Bool) :=
  match t with
  | [] => none
  | (k', v) :: r => if k' = k then some v else hlookup r k

/-- `assign_code(node, parent_code, dct)`: depth-first, left (`'0'` =
`false`) before right (`'1'` = `true`); every non-root node's own `code`
attribute is the bit set on it during merging, which is `0` exactly when
it is a left child, so the accumulated path is the root-to-node label
string.  The accumulator `dct` is threaded explicitly: in Python it is the
function's shared mutable default argument, which persists across calls
(see the process-state theorems below). -/
def assignCode : HNode → List Bool → HTable → HTable
  | .leaf s _, path, t => dictInsert t s path
  | .node _ _ l r, path, t => assignCode r (path ++ [true]) (assignCode l (path ++ [false]) t)

/-- The message-encoding loop of `Huffman.encode`:
`for i in message: encoded += dct_codes[i]`. -/
def huffEncodeBits (t : HTable) : List Nat → Option (List Bool)
  | [] => some []
  | c :: rest =>
    match hlookup t [c] with
    | none => none
    | some code =>
      match huffEncodeBits t rest with
      | none => none
      | some tail => some (code ++ tail)

/-- `Huffman.encode()`: build frequencies, tree and code table (folding the
leaf symbols into the accumulator `acc`, the state of `assign_code`'s
persistent default dict at call time — `[]` on the first call of a
process), then encode the message.  Returns `(dct_codes, tree,
encoded_message)`. -/
def huffEncode (acc : HTable) (msg : List Nat) : Option (HTable × HNode × List Bool) :=
  match huffBuild ((findProbs msg).map (fun p => HNode.leaf [p.1] p.2)) with
  | none => none
  | some root =>
    let table := assignCode root [] acc
    match huffEncodeBits table msg with
    | none => none
    | some bits => some (table, root, bits)

/-- The bit loop of `Huffman.decode`: walk from the root; a step that
lands on a leaf (detected in Python by the child's missing `left`
attribute) emits the leaf's symbol and resets to the root.  Stepping from
a leaf itself dereferences `None` and raises (`none`). -/
def huffDecodeAux (root : HNode) : HNode → List Bool → Option (List Nat)
  | _, [] => some []
  | .leaf _ _, _ :: _ => none
  | .node _ _ l r, b :: bs =>
    match (if b then r else l) with
    | .leaf s _ => (huffDecodeAux root root bs).map (fun tail => s ++ tail)
    | c => huffDecodeAux root c bs

/-- `Huffman.decode()` on a tree and bit string. -/
def huffDecode (root : HNode) (bits : List Bool) : Option (List Nat) :=
  huffDecodeAux root root bits

/-- Walk the tree along a bit path without emitting (`none` when the path
steps beyond a leaf); used to state what "the bits end partway between the
root and a leaf" means. -/
def huffWalk : HNode → List Bool → Option HNode
  | n, [] => some n
  | .leaf _ _, _ :: _ => none
  | .node _ _ l r, b :: bs => huffWalk (if b then r else l) bs

/-- Byte-level Huffman round-trip: encode with a fresh accumulator and
decode the produced bits with the produced tree. -/
def huffRound (msg : List Nat) : Option (List Nat) :=
  (huffEncode [] msg).bind (fun e => huffDecode e.2.1 e.2.2)

/-! ## Claim C3: Huffman round-trip -/

/-- Claim C3: the claim includes messages over a single distinct symbol,
and the code loses them.  A single-symbol message builds a one-leaf tree,
`assign_code` gives that leaf the empty bit string, the encoded message is
empty, and decoding returns the empty message — so `decode(encode("aa"))`
is `""`, not `"aa"`, while the spec's own two-symbol scenario `"aaab"`
does round-trip exactly.  This evaluates the code at the failing input and
at the cited working scenario. -/
theorem huffman_roundtrip_single_symbol_bug :
    huffRound [97, 97] = some [] ∧ huffRound [97, 97, 97, 98] = some [97, 97, 97, 98] := by
  decide

/-! ## Claim C4: empty-input behavior -/

/-- Claim C4 counterexample: on zero-length input `LZW.compress` returns
normally (the 8-byte all-zero header payload) and `LZW77.compress` returns
the empty token list — neither raises any error, let alone
`EmptyInputError` (no such class exists in the code). -/
theorem empty_input_counterexample :
    lzwCompress [] = some [0, 0, 0, 0, 0, 0, 0, 0] ∧ lz77Compress 256 256 [] = [] := by
  decide

/-- Claim C4 amended: on zero-length input no codec raises
`EmptyInputError`: `LZW.compress` returns an 8-byte payload of two
zero-valued headers, `LZ77.compress` returns an empty token list for every
window parameterization, and `Huffman.encode` fails with an `IndexError`
(indexing `nodes[0]` of an empty working list), not an
`EmptyInputError`. -/
theorem empty_input_behavior :
    lzwCompress [] = some [0, 0, 0, 0, 0, 0, 0, 0] ∧
    (∀ bs ls : Nat, lz77Compress bs ls [] = []) ∧
    huffEncode [] [] = none := by
  exact ⟨by decide, fun bs ls => rfl, by decide⟩

/-! ## Claim C5: Huffman decode on truncated bit strings -/

/-- Claim C5 counterexample: on the two-level tree built from a message
such as `"aabc"`, decoding the one-bit string `"0"` exhausts the bits
partway between the root and a leaf, yet `decode` returns normally with
the symbols decoded so far (none), instead of failing with
`TruncatedStreamError` (no such class exists in the code). -/
theorem huffman_truncated_counterexample :
    huffDecode
      (HNode.node [97, 98, 99] 4
        (HNode.node [98, 99] 2 (HNode.leaf [99] 1) (HNode.leaf [98] 1))
        (HNode.leaf [97] 2)) [false] = some [] := by decide

/-- Claim C5 amended: when the remaining bits `p` walk from the current
node `cur` only through internal nodes (i.e. the bit string exhausts
partway between the root and a leaf), the decode loop returns `some []` —
the decoder's overall result is exactly the symbols decoded before this
point, the dangling partial path is silently discarded, and no error is
raised.  (`huffDecodeAux root cur p` is the decoder's continuation after
any already-emitted output; `cur := root` gives `huffDecode root p =
some []`.) -/
theorem huffman_truncated_returns_decoded (root cur : HNode) (p : List Bool)
    (h : ∀ q, q <+: p → ∃ s w l r, huffWalk cur q = some (HNode.node s w l r)) :
    huffDecodeAux root cur p = some [] := by
  induction p generalizing cur with
  | nil => cases cur <;> rfl
  | cons b bs ih =>
    obtain ⟨s, w, l, r, hcur⟩ := h [] ⟨b :: bs, rfl⟩
    have hcur' : cur = HNode.node s w l r := by
      simpa [huffWalk] using hcur
    subst hcur'
    obtain ⟨s', w', l', r', hchild⟩ := h [b] ⟨bs, rfl⟩
    have hchild' : (if b then r else l) = HNode.node s' w' l' r' := by
      simpa [huffWalk] using hchild
    have step : huffDecodeAux root (HNode.node s w l r) (b :: bs) =
        huffDecodeAux root (HNode.node s' w' l' r') bs := by
      simp only [huffDecodeAux, hchild']
    rw [step]
    refine ih _ (fun q hq => ?_)
    have hq' : (b :: q) <+: (b :: bs) := by
      obtain ⟨t, ht⟩ := hq
      exact ⟨t, by simp [ht]⟩
    have := h (b :: q) hq'
    simpa [huffWalk, hchild'] using this

/-- Claim C5 amended, witness: the theorem applied to the counterexample
tree's state with bit string `"0"`. -/
theorem huffman_truncated_returns_decoded_witness :
    huffDecodeAux (HNode.leaf [120] 1)
      (HNode.node [97, 98, 99] 4
        (HNode.node [98, 99] 2 (HNode.leaf [99] 1) (HNode.leaf [98] 1))
        (HNode.leaf [97] 2)) [false] = some [] := by
  refine huffman_truncated_returns_decoded _ _ _ (fun q hq => ?_)
  obtain ⟨t, ht⟩ := hq
  match q, t, ht with
  | [], _, rfl => exact ⟨_, _, _, _, rfl⟩
  | [false], _, rfl => exact ⟨_, _, _, _, rfl⟩

/-! ## Claim C10: the shared mutable code-table accumulator -/

/-- Claim C10: `assign_code`'s default accumulator `dct={}` is created
once per process, so the table built for a second, independent encode call
still contains the first call's entries.  Evaluating the code at
`m1 = "ab"`, `m2 = "cd"`: the second call's code table (stale entries for
`a` and `b` included) differs from the table produced by encoding `m2`
alone, even though the encoded bit strings agree. -/
theorem huffman_accumulator_persists :
    ((huffEncode [] [97, 98]).bind (fun e => huffEncode e.1 [99, 100])).map (fun e => e.1) ≠
      (huffEncode [] [99, 100]).map (fun e => e.1) ∧
    ((huffEncode [] [97, 98]).bind (fun e => huffEncode e.1 [99, 100])).map (fun e => e.2.2) =
      (huffEncode [] [99, 100]).map (fun e => e.2.2) := by
  decide

/-! ## Claim C6: the match-extension loop of `_find_match` -/

/-- Claim C6 counterexample: with window `"a"`, input `"aaaaa"` and
`lookahead_size = 4`, the claimed characterization ("continue exactly
while the window byte matches, length bounded by `lookahead_size`")
predicts a match length of `min 5 4 = 4`, but the source loop reports 3:
`for length in range(4)` leaves `length = 3` when no break occurs, so a
full-lookahead run is reported one short. -/
theorem lz77_matchlen_cap_counterexample :
    lz77MatchLen [97] [97, 97, 97, 97, 97] 0 0 4 ≠
      min (lz77GreedyLen [97] [97, 97, 97, 97, 97] 0 0 0) 4 := by
  decide

/-- `lz77GreedyGo` never returns less than its starting index. -/
theorem lz77GreedyGo_ge (buf X : List Nat) (i pos : Nat) :
    ∀ k l, l ≤ lz77GreedyGo buf X i pos l k := by
  intro k
  induction k with
  | zero =>
    intro l
    exact le_refl l
  | succ k ih =>
    intro l
    rw [lz77GreedyGo]
    split
    · exact le_trans (by omega) (ih (l + 1))
    · exact le_refl l

/-- `lz77GreedyLen` never returns less than its starting index. -/
theorem lz77GreedyLen_ge (buf X : List Nat) (i pos l : Nat) :
    l ≤ lz77GreedyLen buf X i pos l :=
  lz77GreedyGo_ge buf X i pos _ l

/-- When the extension condition holds at `l`, the greedy length from `l`
is the greedy length from `l + 1`. -/
theorem lz77GreedyLen_pass (buf X : List Nat) (i pos l : Nat)
    (h : pos + l < X.length ∧
      buf.getD (i + l % (buf.length - i)) 0 = X.getD (pos + l) 0) :
    lz77GreedyLen buf X i pos l = lz77GreedyLen buf X i pos (l + 1) := by
  unfold lz77GreedyLen
  have harith : X.length + 1 - (pos + l) = (X.length + 1 - (pos + (l + 1))) + 1 := by
    omega
  rw [harith, lz77GreedyGo, if_pos h]

/-- When the extension condition fails at `l`, the greedy length from `l`
is `l` itself. -/
theorem lz77GreedyLen_stop (buf X : List Nat) (i pos l : Nat)
    (h : ¬ (pos + l < X.length ∧
      buf.getD (i + l % (buf.length - i)) 0 = X.getD (pos + l) 0)) :
    lz77GreedyLen buf X i pos l = l := by
  unfold lz77GreedyLen
  cases hk : X.length + 1 - (pos + l) with
  | zero => rfl
  | succ k => rw [lz77GreedyGo, if_neg h]

/-- The inner-loop worker computes the greedy length capped at `la - 1`,
provided the fuel matches the remaining range values. -/
theorem lz77MatchLenGo_eq (buf X : List Nat) (i pos la : Nat) :
    ∀ k l, l + k = la →
      lz77MatchLenGo buf X i pos la l k =
        min (lz77GreedyLen buf X i pos l) (la - 1) := by
  intro k
  induction k with
  | zero =>
    intro l hl
    have hg := lz77GreedyLen_ge buf X i pos l
    show la - 1 = _
    omega
  | succ k ih =>
    intro l hl
    by_cases h1 : X.length ≤ pos + l
    · have hng : ¬ (pos + l < X.length ∧
          buf.getD (i + l % (buf.length - i)) 0 = X.getD (pos + l) 0) := by
        intro hc
        omega
      rw [lz77MatchLenGo, if_pos h1, lz77GreedyLen_stop buf X i pos l hng]
      omega
    · by_cases h2 : buf.getD (i + l % (buf.length - i)) 0 = X.getD (pos + l) 0
      · have hne : ¬ (buf.getD (i + l % (buf.length - i)) 0 ≠ X.getD (pos + l) 0) := by
          intro hx
          exact hx h2
        rw [lz77MatchLenGo, if_neg h1, if_neg hne,
          lz77GreedyLen_pass buf X i pos l ⟨by omega, h2⟩]
        exact ih (l + 1) (by omega)
      · have hng : ¬ (pos + l < X.length ∧
            buf.getD (i + l % (buf.length - i)) 0 = X.getD (pos + l) 0) := by
          intro hc
          exact h2 hc.2
        rw [lz77MatchLenGo, if_neg h1, if_pos h2, lz77GreedyLen_stop buf X i pos l hng]
        omega

/-- Claim C6 amended: the reported match length is the greedy
self-overlapping match length capped at `lookahead_size - 1` (not at
`lookahead_size`: Python's loop variable retains `la - 1` after a full
run), and the modulo index keeps every window access strictly inside the
window, so the scan never reads past the window's tail. -/
theorem lz77_matchlen_characterization (buf X : List Nat) (i pos la l : Nat)
    (hi : i < buf.length) :
    i + l % (buf.length - i) < buf.length ∧
    lz77MatchLen buf X i pos la = min (lz77GreedyLen buf X i pos 0) (la - 1) := by
  constructor
  · have := Nat.mod_lt l (y := buf.length - i) (by omega)
    omega
  · exact lz77MatchLenGo_eq buf X i pos la la 0 (by omega)

/-- Claim C6 amended, witness: the characterization at window `"a"`,
input `"aa"`, `lookahead_size = 4`, probe index 2. -/
theorem lz77_matchlen_characterization_witness :
    0 + 2 % (List.length [97] - 0) < List.length [97] ∧
    lz77MatchLen [97] [97, 97] 0 0 4 =
      min (lz77GreedyLen [97] [97, 97] 0 0 0) (4 - 1) :=
  lz77_matchlen_characterization [97] [97, 97] 0 0 4 2 (by decide)

/-! ## Claim C9: LZW dictionary growth -/

/-- Structure of a successful `lzwStep`: a code found by the longest-match
search, the matched dictionary entry, the advanced position, and the
dictionary extended by at most the one entry `match ++ [next byte]`. -/
theorem lzwStep_some (X : List Nat) (i : Nat) (d : List (List Nat))
    (pid i' : Nat) (d' : List (List Nat))
    (h : lzwStep X i d = some (pid, i', d')) :
    ∃ pfx, findLongestPref d (X.drop i) = some pid ∧ d[pid]? = some pfx ∧
      i' = i + pfx.length ∧
      d' = if i + pfx.length < X.length then d ++ [pfx ++ [X.getD (i + pfx.length) 0]]
           else d := by
  unfold lzwStep at h
  cases hf : findLongestPref d (X.drop i) with
  | none =>
    simp only [hf] at h
    exact Option.noConfusion h
  | some pid0 =>
    simp only [hf] at h
    cases hg : d[pid0]? with
    | none =>
      simp only [hg] at h
      exact Option.noConfusion h
    | some pfx =>
      simp only [hg, Option.some.injEq, Prod.mk.injEq] at h
      obtain ⟨h1, h2, h3⟩ := h
      subst h1
      exact ⟨pfx, rfl, hg, h2.symm, h3.symm⟩

/-- Invariant of reachable `LZW.compress` loop states: every dictionary
entry is nonempty, and the dictionary's length is bounded by the seed size
plus the number of input bytes consumed. -/
theorem lzwReach_inv (X : List Nat) (i : Nat) (d : List (List Nat))
    (hr : LzwReach X i d) :
    (∀ e ∈ d, e ≠ []) ∧ d.length ≤ (dedupFirst X).length + i := by
  induction hr with
  | base =>
    refine ⟨fun e he => ?_, by simp⟩
    obtain ⟨b, _, rfl⟩ := List.mem_map.1 he
    simp
  | @step i d pid i' d' hr hs ih =>
    obtain ⟨pfx, hf, hg, hi', hd'⟩ := lzwStep_some X i d pid i' d' hs
    have hpfx : pfx ≠ [] := ih.1 pfx (List.getElem?_mem hg)
    have hlen : 1 ≤ pfx.length := by
      cases pfx with
      | nil => exact absurd rfl hpfx
      | cons a r => simp
    constructor
    · intro e he
      rw [hd'] at he
      by_cases hc : i + pfx.length < X.length
      · rw [if_pos hc] at he
        rcases List.mem_append.1 he with h1 | h1
        · exact ih.1 e h1
        · rcases List.mem_singleton.1 h1 with rfl
          cases pfx with
          | nil => exact absurd rfl hpfx
          | cons a r => simp
      · rw [if_neg hc] at he
        exact ih.1 e he
    · have hd'len : d'.length ≤ d.length + 1 := by
        rw [hd']
        by_cases hc : i + pfx.length < X.length
        · rw [if_pos hc]
          simp
        · rw [if_neg hc]
          omega
      have := ih.2
      omega

/-- Claim C9: along the `LZW.compress` loop the dictionary only grows —
each step leaves the current dictionary a prefix of the next one (so no
existing entry is ever mutated and the length never decreases) — and after
consuming `i` input bytes its length never exceeds the seed dictionary
size plus `i`. -/
theorem lzw_dict_growth (X : List Nat) (i : Nat) (d : List (List Nat))
    (pid i' : Nat) (d' : List (List Nat))
    (hr : LzwReach X i d) (hs : lzwStep X i d = some (pid, i', d')) :
    d <+: d' ∧ d.length ≤ d'.length ∧
    d.length ≤ (dedupFirst X).length + i ∧
    d'.length ≤ (dedupFirst X).length + i' := by
  have hinv := lzwReach_inv X i d hr
  have hinv' := lzwReach_inv X i' d' (LzwReach.step hr hs)
  obtain ⟨pfx, hf, hg, hi', hd'⟩ := lzwStep_some X i d pid i' d' hs
  have hpre : d <+: d' := by
    rw [hd']
    by_cases hc : i + pfx.length < X.length
    · rw [if_pos hc]
      exact ⟨[pfx ++ [X.getD (i + pfx.length) 0]], rfl⟩
    · rw [if_neg hc]
  exact ⟨hpre, hpre.length_le, hinv.2, hinv'.2⟩

/-! ## Claim C8: the LZW wire format -/

/-- Reading back a little-endian 4-byte header recovers the packed
value. -/
theorem readU32LE_le4 (v : Nat) (rest : List Nat) (hv : v < 4294967296) :
    readU32LE (le4 v ++ rest) = some v := by
  show some (v % 256 + 256 * (v / 256 % 256) + 65536 * (v / 65536 % 256) +
      16777216 * (v / 16777216 % 256)) = some v
  congr 1
  omega

/-- Reassembling a big-endian 4-byte code recovers the packed value. -/
theorem unBE4_be4 (v : Nat) (hv : v < 4294967296) :
    unBE4 (v / 16777216 % 256) (v / 65536 % 256) (v / 256 % 256) (v % 256) = v := by
  unfold unBE4
  omega

/-- A successful `packCodes` run means every code fits in a `u32` and the
output is the concatenation of the fixed-width big-endian encodings, four
bytes per code. -/
theorem packCodes_sound (codes : List Nat) :
    ∀ bs : List Nat, packCodes codes = some bs →
      (∀ c ∈ codes, c < 4294967296) ∧ bs = (codes.map be4).flatten ∧
      bs.length = 4 * codes.length := by
  induction codes with
  | nil =>
    intro bs h
    simp only [packCodes, Option.some.injEq] at h
    subst h
    simp
  | cons c cs ih =>
    intro bs h
    unfold packCodes pack4be at h
    by_cases hc : c < 4294967296
    · rw [if_pos hc] at h
      cases hr : packCodes cs with
      | none =>
        simp only [hr] at h
        exact Option.noConfusion h
      | some rest =>
        simp only [hr, Option.some.injEq] at h
        subst h
        obtain ⟨hin, hfl, hlen⟩ := ih rest hr
        refine ⟨?_, ?_, ?_⟩
        · intro x hx
          rcases List.mem_cons.1 hx with rfl | hx
          · exact hc
          · exact hin x hx
        · simp [hfl]
        · simp only [List.length_append, hlen, List.length_cons, be4, List.length_cons]
          simp
          omega
    · rw [if_neg hc] at h
      exact Option.noConfusion h

/-- Reading `|codes|` big-endian 4-byte codes starting right after any
byte run `pfx` recovers the code list. -/
theorem lzwReadCodes_flatten (codes : List Nat) :
    ∀ pfx : List Nat, (∀ c ∈ codes, c < 4294967296) →
      lzwReadCodes (pfx ++ (codes.map be4).flatten) pfx.length codes.length = some codes := by
  induction codes with
  | nil =>
    intro pfx h
    rfl
  | cons c cs ih =>
    intro pfx h
    have hdrop : (pfx ++ ((c :: cs).map be4).flatten).drop pfx.length =
        be4 c ++ (cs.map be4).flatten := by
      simp [List.drop_left]
    show lzwReadCodes (pfx ++ ((c :: cs).map be4).flatten) pfx.length (cs.length + 1) =
      some (c :: cs)
    rw [lzwReadCodes, hdrop]
    have htake : (be4 c ++ (cs.map be4).flatten).take 4 =
        [c / 16777216 % 256, c / 65536 % 256, c / 256 % 256, c % 256] := by
      simp [be4]
    rw [htake]
    have hc : c < 4294967296 := h c (List.mem_cons_self c cs)
    have hre : pfx.length + 4 = (pfx ++ be4 c).length := by
      simp [be4]
    have hassoc : pfx ++ ((c :: cs).map be4).flatten = (pfx ++ be4 c) ++ (cs.map be4).flatten := by
      simp
    rw [hre, hassoc, ih (pfx ++ be4 c) (fun x hx => h x (List.mem_cons_of_mem c hx))]
    simp [unBE4_be4 c hc]

/-- Destructure a successful `lzwCompress`: the emitted code list, the
`u32` bounds, and the payload layout. -/
theorem lzwCompress_some (X p : List Nat) (hc : lzwCompress X = some p) :
    ∃ codes,
      lzwLoop X (X.length + 1) 0 ((dedupFirst X).map (fun b => [b])) = some codes ∧
      (∀ c ∈ codes, c < 4294967296) ∧
      (dedupFirst X).length < 4294967296 ∧ 4 * codes.length < 4294967296 ∧
      p = le4 (dedupFirst X).length ++ dedupFirst X ++
          le4 (4 * codes.length) ++ (codes.map be4).flatten := by
  unfold lzwCompress at hc
  cases hl : lzwLoop X (X.length + 1) 0 ((dedupFirst X).map (fun b => [b])) with
  | none =>
    simp only [hl] at hc
    exact Option.noConfusion hc
  | some codes =>
    simp only [hl] at hc
    cases hp : packCodes codes with
    | none =>
      simp only [hp] at hc
      exact Option.noConfusion hc
    | some cbytes =>
      simp only [hp] at hc
      obtain ⟨hin, hfl, hlen⟩ := packCodes_sound codes cbytes hp
      unfold pack4 at hc
      by_cases h1 : (dedupFirst X).length < 4294967296
      · rw [if_pos h1] at hc
        by_cases h2 : cbytes.length < 4294967296
        · rw [if_pos h2] at hc
          simp only [Option.some.injEq] at hc
          refine ⟨codes, rfl, hin, h1, by omega, ?_⟩
          have hlen' : ((codes.map be4).flatten).length = 4 * codes.length := by
            rw [← hfl]
            exact hlen
          rw [← hc, hfl, hlen']
        · rw [if_neg h2] at hc
          exact Option.noConfusion hc
      · rw [if_neg h1] at hc
        exact Option.noConfusion hc

/-- Parsing a well-formed layout recovers the seed bytes and codes. -/
theorem lzwParsePayload_layout (sd codes : List Nat)
    (hsd : sd.length < 4294967296) (hin : ∀ c ∈ codes, c < 4294967296)
    (hcl : 4 * codes.length < 4294967296) :
    lzwParsePayload
      (le4 sd.length ++ sd ++ le4 (4 * codes.length) ++ (codes.map be4).flatten) =
      some (sd, codes) := by
  have hP : le4 sd.length ++ sd ++ le4 (4 * codes.length) ++ (codes.map be4).flatten =
      le4 sd.length ++ (sd ++ (le4 (4 * codes.length) ++ (codes.map be4).flatten)) := by
    simp
  have h1 : readU32LE
      (le4 sd.length ++ sd ++ le4 (4 * codes.length) ++ (codes.map be4).flatten) =
      some sd.length := by
    rw [hP]
    exact readU32LE_le4 _ _ hsd
  have hd4 : (le4 sd.length ++ sd ++ le4 (4 * codes.length) ++
      (codes.map be4).flatten).drop (4 + sd.length) =
      le4 (4 * codes.length) ++ (codes.map be4).flatten := by
    have h4 : (4 : Nat) + sd.length = (le4 sd.length ++ sd).length := by
      simp [le4]
      omega
    rw [hP, h4, ← List.append_assoc, List.drop_left]
  have h2 : readU32LE ((le4 sd.length ++ sd ++ le4 (4 * codes.length) ++
      (codes.map be4).flatten).drop (4 + sd.length)) = some (4 * codes.length) := by
    rw [hd4]
    exact readU32LE_le4 _ _ hcl
  have h3 : lzwReadCodes
      (le4 sd.length ++ sd ++ le4 (4 * codes.length) ++ (codes.map be4).flatten)
      (8 + sd.length) codes.length = some codes := by
    have hre : (8 : Nat) + sd.length =
        (le4 sd.length ++ sd ++ le4 (4 * codes.length)).length := by
      simp [le4]
      omega
    rw [hre]
    exact lzwReadCodes_flatten codes _ hin
  have h4' : ((le4 sd.length ++ sd ++ le4 (4 * codes.length) ++
      (codes.map be4).flatten).drop 4).take sd.length = sd := by
    have h4 : (le4 sd.length).length = 4 := by
      simp [le4]
    have hre : le4 sd.length ++ sd ++ le4 (4 * codes.length) ++ (codes.map be4).flatten =
        le4 sd.length ++ (sd ++ (le4 (4 * codes.length) ++ (codes.map be4).flatten)) := hP
    rw [hre, ← h4, List.drop_left]
    exact List.take_left' rfl
  have hcnt : (4 * codes.length + 3) / 4 = codes.length := by
    omega
  simp only [lzwParsePayload, h1, hcnt, h2, h3, h4']

/-- Claim C8: a successful `LZW.compress` emits exactly
`u32le(|seed|) ++ seed ++ u32le(|code bytes|) ++ codes`, each code a
fixed-width 4-byte big-endian `u32` (so the code-section length header is
`4·|codes|`), and `LZW.decompress`'s parser maps any payload of exactly
this layout back to its seed bytes and code list. -/
theorem lzw_wire_format (X p sd2 codes2 : List Nat) (hc : lzwCompress X = some p)
    (hsd2 : sd2.length < 4294967296) (hin2 : ∀ c ∈ codes2, c < 4294967296)
    (hcl2 : 4 * codes2.length < 4294967296) :
    (∃ codes,
      lzwLoop X (X.length + 1) 0 ((dedupFirst X).map (fun b => [b])) = some codes ∧
      p = le4 (dedupFirst X).length ++ dedupFirst X ++
          le4 (4 * codes.length) ++ (codes.map be4).flatten) ∧
    lzwParsePayload
      (le4 sd2.length ++ sd2 ++ le4 (4 * codes2.length) ++ (codes2.map be4).flatten) =
      some (sd2, codes2) := by
  obtain ⟨codes, hl, hin, h1, h2, hp⟩ := lzwCompress_some X p hc
  exact ⟨⟨codes, hl, hp⟩, lzwParsePayload_layout sd2 codes2 hsd2 hin2 hcl2⟩

/-- Claim C8, witness: the layout of the compressed form of `"aba"` and
the parse of a tiny explicit layout. -/
theorem lzw_wire_format_witness :
    (∃ codes,
      lzwLoop [97, 98, 97] ([97, 98, 97].length + 1) 0
          ((dedupFirst [97, 98, 97]).map (fun b => [b])) = some codes ∧
      [2, 0, 0, 0, 97, 98, 12, 0, 0, 0, 0, 0, 0, 0, 0, 0, 0, 1, 0, 0, 0, 0] =
        le4 (dedupFirst [97, 98, 97]).length ++ dedupFirst [97, 98, 97] ++
          le4 (4 * codes.length) ++ (codes.map be4).flatten) ∧
    lzwParsePayload
      (le4 (List.length [5, 9]) ++ [5, 9] ++ le4 (4 * List.length [1, 0]) ++
        (([1, 0] : List Nat).map be4).flatten) = some ([5, 9], [1, 0]) :=
  lzw_wire_format [97, 98, 97]
    [2, 0, 0, 0, 97, 98, 12, 0, 0, 0, 0, 0, 0, 0, 0, 0, 0, 1, 0, 0, 0, 0]
    [5, 9] [1, 0] (by decide) (by decide) (by decide) (by decide)

/-- Claim C9, witness: the first step on input `"aa"` extends the seeded
dictionary `[[97]]` to `[[97], [97, 97]]`. -/
theorem lzw_dict_growth_witness :
    [[97]] <+: [[97], [97, 97]] ∧
    List.length [[97]] ≤ List.length [[97], [97, 97]] ∧
    List.length [[97]] ≤ (dedupFirst [97, 97]).length + 0 ∧
    List.length [[97], [97, 97]] ≤ (dedupFirst [97, 97]).length + 1 :=
  lzw_dict_growth [97, 97] 0 [[97]] 0 1 [[97], [97, 97]]
    LzwReach.base (by decide)

/-! ## Claim C1: LZW round-trip -/

/-- `list.index` really returns an index holding the searched value. -/
theorem idxOf4_sound (d : List (List Nat)) (x : List Nat) :
    ∀ j, idxOf4 d x = some j → d[j]? = some x := by
  induction d with
  | nil =>
    intro j h
    exact Option.noConfusion h
  | cons e r ih =>
    intro j h
    unfold idxOf4 at h
    by_cases he : e = x
    · rw [if_pos he] at h
      simp only [Option.some.injEq] at h
      subst h
      simp [he]
    · rw [if_neg he] at h
      cases hr : idxOf4 r x with
      | none =>
        rw [hr] at h
        exact Option.noConfusion h
      | some j0 =>
        rw [hr] at h
        have h' : some (j0 + 1) = some j := h
        rw [← Option.some.inj h']
        simpa using ih j0 hr

/-- Soundness of the greedy scan: a successful `flpGo` returns the index
of an entry of the form `pfx ++ s1` where `s1` is a leading part of the
scanned sequence. -/
theorem flpGo_sound (d : List (List Nat)) :
    ∀ (seq pfx : List Nat) (pid : Nat), flpGo d pfx seq = some pid →
      ∃ s1 s2, seq = s1 ++ s2 ∧ d[pid]? = some (pfx ++ s1) := by
  intro seq
  induction seq with
  | nil =>
    intro pfx pid h
    exact ⟨[], [], rfl, by simpa using idxOf4_sound d pfx pid h⟩
  | cons c rest ih =>
    intro pfx pid h
    unfold flpGo at h
    by_cases hm : (pfx ++ [c]) ∈ d
    · rw [if_pos hm] at h
      obtain ⟨s1, s2, hseq, hidx⟩ := ih (pfx ++ [c]) pid h
      exact ⟨c :: s1, s2, by simp [hseq], by simpa using hidx⟩
    · rw [if_neg hm] at h
      exact ⟨[], c :: rest, rfl, by simpa using idxOf4_sound d pfx pid h⟩

/-- Soundness of `find_longest_prefix`: the returned index holds an entry
that is a leading part of the sequence. -/
theorem findLongestPref_sound (d : List (List Nat)) (seq : List Nat) (pid : Nat)
    (h : findLongestPref d seq = some pid) :
    ∃ s1 s2, seq = s1 ++ s2 ∧ d[pid]? = some s1 := by
  obtain ⟨s1, s2, hseq, hidx⟩ := flpGo_sound d seq [] pid h
  exact ⟨s1, s2, hseq, by simpa using hidx⟩

/-- The decoder's replay loop inverts the encoder loop.  Invariant: the
encoder is at position `i` with dictionary `Dd ++ [Pprv ++ [X[i]]]` — the
decoder's dictionary `Dd` plus the one pending entry the decoder will
reconstruct while processing the next code — and `prv` is the previous
code, whose entry `Pprv` was the previous match. -/
theorem lzwLoop_replay (X : List Nat) :
    ∀ (fuel i prv : Nat) (Dd : List (List Nat)) (Pprv : List Nat) (codes : List Nat),
      Dd[prv]? = some Pprv → Pprv ≠ [] → (∀ e ∈ Dd, e ≠ []) → i < X.length →
      lzwLoop X fuel i (Dd ++ [Pprv ++ [X.getD i 0]]) = some codes →
      lzwReplay codes prv Dd = some (X.drop i) := by
  intro fuel
  induction fuel with
  | zero =>
    intro i prv Dd Pprv codes _ _ _ _ hloop
    exact Option.noConfusion hloop
  | succ fuel ih =>
    intro i prv Dd Pprv codes hprv hPprv hne hi hloop
    rw [lzwLoop, if_pos hi] at hloop
    set Dfull := Dd ++ [Pprv ++ [X.getD i 0]] with hDfull
    cases hs : lzwStep X i Dfull with
    | none =>
      rw [hs] at hloop
      exact Option.noConfusion hloop
    | some t =>
      obtain ⟨pid, i', d'⟩ := t
      rw [hs] at hloop
      cases hrest : lzwLoop X fuel i' d' with
      | none =>
        simp only [hrest] at hloop
        exact Option.noConfusion hloop
      | some rest =>
        simp only [hrest, Option.some.injEq] at hloop
        subst hloop
        obtain ⟨P, hf, hg, hi', hd'⟩ := lzwStep_some X i Dfull pid i' d' hs
        subst hi'
        have hnefull : ∀ e ∈ Dfull, e ≠ [] := by
          intro e he
          rcases List.mem_append.1 he with h1 | h1
          · exact hne e h1
          · rcases List.mem_singleton.1 h1 with rfl
            cases Pprv with
            | nil => exact absurd rfl hPprv
            | cons a r => simp
        have hPne : P ≠ [] := hnefull P (List.getElem?_mem hg)
        obtain ⟨s1, s2, hseq, hidx⟩ := findLongestPref_sound Dfull (X.drop i) pid hf
        have hPs1 : P = s1 := by
          rw [hg] at hidx
          exact Option.some.inj hidx
        subst hPs1
        obtain ⟨hd, tl, hP⟩ : ∃ hd tl, P = hd :: tl := by
          cases P with
          | nil => exact absurd rfl hPne
          | cons a r => exact ⟨a, r, rfl⟩
        have hhd : hd = X.getD i 0 := by
          have h1 : (X.drop i)[0]? = some hd := by
            rw [hseq, hP]
            simp
          rw [List.getElem?_drop] at h1
          have h2 : X[i + 0]? = some (X.getD i 0) := by
            rw [Nat.add_zero, List.getElem?_eq_getElem hi]
            congr 1
            exact Eq.symm (List.getD_eq_getElem X 0 hi)
          rw [h2] at h1
          exact (Option.some.inj h1).symm
        have hpidlt : pid < Dd.length + 1 := by
          have := List.getElem?_eq_some_iff.1 hg
          obtain ⟨hlt, _⟩ := this
          simpa [hDfull] using hlt
        have hdropi' : X.drop (i + P.length) = s2 := by
          have hdd : X.drop (i + P.length) = (X.drop i).drop P.length :=
            (List.drop_drop P.length i X).symm
          rw [hdd, hseq, List.drop_left]
        have htail : lzwReplay rest pid Dfull = some (X.drop (i + P.length)) := by
          by_cases hi'n : i + P.length < X.length
          · rw [if_pos hi'n] at hd'
            subst hd'
            exact ih (i + P.length) pid Dfull P rest hg hPne hnefull hi'n hrest
          · rw [if_neg hi'n] at hd'
            subst hd'
            have hrest0 : rest = [] := by
              cases fuel with
              | zero =>
                exact Option.noConfusion hrest
              | succ fuel' =>
                rw [lzwLoop, if_neg hi'n] at hrest
                exact (Option.some.inj hrest).symm
            subst hrest0
            have hnil : X.drop (i + P.length) = [] := List.drop_eq_nil_of_le (by omega)
            rw [hnil]
            rfl
        by_cases hpid : pid < Dd.length
        · have hDdpid : Dd[pid]? = some P := by
            rw [hDfull] at hg
            rwa [List.getElem?_append_left hpid] at hg
          have hstep : lzwReplay (pid :: rest) prv Dd =
              match lzwReplay rest pid (Dd ++ [Pprv ++ [hd]]) with
              | none => none
              | some tl2 => some (P ++ tl2) := by
            rw [lzwReplay, if_pos hpid, hprv, hDdpid, hP]
            rfl
          rw [hstep, hhd]
          rw [htail]
          rw [hseq, hdropi']
        · have hpideq : pid = Dd.length := by omega
          have hPfull : P = Pprv ++ [X.getD i 0] := by
            rw [hDfull] at hg
            rw [hpideq] at hg
            rw [List.getElem?_concat_length] at hg
            exact (Option.some.inj hg).symm
          obtain ⟨ph, pt, hPprv'⟩ : ∃ ph pt, Pprv = ph :: pt := by
            cases Pprv with
            | nil => exact absurd rfl hPprv
            | cons a r => exact ⟨a, r, rfl⟩
          have hph : ph = X.getD i 0 := by
            have h1 : P[0]? = some hd := by
              rw [hP]
              simp
            have h2 : P[0]? = some ph := by
              rw [hPfull, hPprv']
              simp
            rw [h1] at h2
            rw [← Option.some.inj h2, hhd]
          have hstep : lzwReplay (pid :: rest) prv Dd =
              match lzwReplay rest pid (Dd ++ [Pprv ++ [ph]]) with
              | none => none
              | some tl2 => some ((Pprv ++ [ph]) ++ tl2) := by
            rw [lzwReplay, if_neg hpid, hprv, hPprv']
            rfl
          rw [hstep, hph]
          rw [htail]
          have hPeq : Pprv ++ [X.getD i 0] = P := hPfull.symm
          rw [hPeq, hseq, hdropi']

/-- Claim C1: the LZW codec round-trips.  For every nonempty byte
sequence `X` (bytes are arbitrary `Nat`s here, so in particular all
non-ASCII multi-byte UTF-8 sequences are covered), whenever
`LZW.compress` returns a payload — it does unless a `struct.pack` width
limit aborts it, which needs a multi-gigabyte input — `LZW.decompress`
maps that payload back to exactly `X`. -/
theorem lzw_roundtrip (X p : List Nat) (hne : X ≠ []) (hc : lzwCompress X = some p) :
    lzwDecompress p = some X := by
  obtain ⟨codes, hl, hin, h1, h2, hp⟩ := lzwCompress_some X p hc
  subst hp
  have hparse := lzwParsePayload_layout (dedupFirst X) codes h1 hin h2
  have hn : 0 < X.length := by
    cases X with
    | nil => exact absurd rfl hne
    | cons a r => simp
  set D0 := (dedupFirst X).map (fun b => [b]) with hD0
  have hneD0 : ∀ e ∈ D0, e ≠ [] := by
    intro e he
    obtain ⟨b, _, rfl⟩ := List.mem_map.1 he
    simp
  obtain ⟨fuel0, hfuel⟩ : ∃ f, X.length + 1 = f + 1 := ⟨X.length, rfl⟩
  rw [hfuel, lzwLoop, if_pos hn] at hl
  cases hs : lzwStep X 0 D0 with
  | none =>
    rw [hs] at hl
    exact Option.noConfusion hl
  | some t =>
    obtain ⟨pid0, i1, d1⟩ := t
    rw [hs] at hl
    cases hrest : lzwLoop X fuel0 i1 d1 with
    | none =>
      simp only [hrest] at hl
      exact Option.noConfusion hl
    | some rest =>
      simp only [hrest, Option.some.injEq] at hl
      subst hl
      obtain ⟨P0, hf0, hg0, hi1, hd1⟩ := lzwStep_some X 0 D0 pid0 i1 d1 hs
      subst hi1
      have hP0ne : P0 ≠ [] := hneD0 P0 (List.getElem?_mem hg0)
      obtain ⟨s1, s2, hseq, hidx⟩ := findLongestPref_sound D0 (X.drop 0) pid0 hf0
      have hP0s1 : P0 = s1 := by
        rw [hg0] at hidx
        exact Option.some.inj hidx
      subst hP0s1
      rw [List.drop_zero] at hseq
      have hz : (0 : Nat) + P0.length = P0.length := by
        omega
      rw [hz] at hrest hd1
      have hdropi1 : X.drop P0.length = s2 := by
        rw [hseq, List.drop_left]
      have hrepl : lzwReplay rest pid0 D0 = some (X.drop P0.length) := by
        by_cases hi1n : P0.length < X.length
        · rw [if_pos hi1n] at hd1
          subst hd1
          exact lzwLoop_replay X fuel0 P0.length pid0 D0 P0 rest hg0 hP0ne hneD0 hi1n hrest
        · rw [if_neg hi1n] at hd1
          subst hd1
          have hrest0 : rest = [] := by
            cases fuel0 with
            | zero =>
              omega
            | succ fuel' =>
              rw [lzwLoop, if_neg hi1n] at hrest
              exact (Option.some.inj hrest).symm
          subst hrest0
          have hnil : X.drop P0.length = [] := List.drop_eq_nil_of_le (by omega)
          rw [hnil]
          rfl
      simp only [lzwDecompress, hparse, ← hD0, hg0, hrepl, hdropi1]
      rw [hseq]

/-- Claim C1, witness: the round-trip at the concrete input `"aba"`. -/
theorem lzw_roundtrip_witness :
    (lzwCompress [97, 98, 97]).bind lzwDecompress = some [97, 98, 97] := by
  cases h : lzwCompress [97, 98, 97] with
  | none => exact absurd h (by decide)
  | some p => exact lzw_roundtrip [97, 98, 97] p (by decide) h

/-! ## Claim C7: match selection in `_find_match` -/

/-- First-maximum semantics of Python's `max(..., key=lambda x: x[1])`
over a mapped strictly increasing index list: the fold returns `g iw` for
a member `iw` whose key is maximal, and every smaller member index has a
strictly smaller key (Python's `max` keeps the earliest among ties). -/
theorem listMaxBySnd_spec (g : Nat → Nat × Nat) :
    ∀ (is : List Nat) (i0 : Nat), (i0 :: is).Pairwise (· < ·) →
      ∃ iw, iw ∈ i0 :: is ∧ listMaxBySnd (g i0) (is.map g) = g iw ∧
        (∀ j ∈ i0 :: is, (g j).2 ≤ (g iw).2) ∧
        (∀ j ∈ i0 :: is, j < iw → (g j).2 < (g iw).2) := by
  intro is
  induction is with
  | nil =>
    intro i0 _
    refine ⟨i0, by simp, rfl, ?_, ?_⟩
    · intro j hj
      rw [List.mem_singleton.1 hj]
    · intro j hj hlt
      rw [List.mem_singleton.1 hj] at hlt
      omega
  | cons x rest ih =>
    intro i0 hpw
    rw [List.pairwise_cons] at hpw
    obtain ⟨hall, hpwt⟩ := hpw
    have hpwt' := hpwt
    rw [List.pairwise_cons] at hpwt'
    obtain ⟨hallx, hpwr⟩ := hpwt'
    have hfold : listMaxBySnd (g i0) ((x :: rest).map g) =
        listMaxBySnd (if (g i0).2 < (g x).2 then g x else g i0) (rest.map g) := rfl
    by_cases hgt : (g i0).2 < (g x).2
    · obtain ⟨iw, hmem, heq, hmax, hfirst⟩ := ih x hpwt
      refine ⟨iw, List.mem_cons_of_mem i0 hmem, ?_, ?_, ?_⟩
      · rw [hfold, if_pos hgt]
        exact heq
      · intro j hj
        rcases List.mem_cons.1 hj with rfl | hj2
        · have hx := hmax x (List.mem_cons_self x rest)
          omega
        · exact hmax j hj2
      · intro j hj hlt
        rcases List.mem_cons.1 hj with rfl | hj2
        · have hx := hmax x (List.mem_cons_self x rest)
          omega
        · exact hfirst j hj2 hlt
    · have hpw2 : (i0 :: rest).Pairwise (· < ·) :=
        List.pairwise_cons.2 ⟨fun j hj => hall j (List.mem_cons_of_mem x hj), hpwr⟩
      obtain ⟨iw, hmem, heq, hmax, hfirst⟩ := ih i0 hpw2
      have hmem' : iw ∈ i0 :: x :: rest := by
        rcases List.mem_cons.1 hmem with rfl | hj2
        · exact List.mem_cons_self iw _
        · exact List.mem_cons_of_mem i0 (List.mem_cons_of_mem x hj2)
      refine ⟨iw, hmem', ?_, ?_, ?_⟩
      · rw [hfold, if_neg hgt]
        exact heq
      · intro j hj
        rcases List.mem_cons.1 hj with rfl | hj2
        · exact hmax j (List.mem_cons_self j rest)
        · rcases List.mem_cons.1 hj2 with rfl | hj3
          · have hi0 := hmax i0 (List.mem_cons_self i0 rest)
            omega
          · exact hmax j (List.mem_cons_of_mem i0 hj3)
      · intro j hj hlt
        rcases List.mem_cons.1 hj with rfl | hj2
        · exact hfirst j (List.mem_cons_self j rest) hlt
        · rcases List.mem_cons.1 hj2 with rfl | hj3
          · rcases List.mem_cons.1 hmem with rfl | hiw2
            · have hx := hall j (List.mem_cons_self j rest)
              omega
            · have hi0lt : i0 < iw := hall iw (List.mem_cons_of_mem j hiw2)
              have h1 := hfirst i0 (List.mem_cons_self i0 rest) hi0lt
              omega
          · exact hfirst j (List.mem_cons_of_mem i0 hj3) hlt

/-- The scan of `_find_match` is the matched-byte filter of the window's
index range, mapped to `(offset, length)` pairs. -/
theorem lz77Candidates_eq (buf X : List Nat) (pos la : Nat) :
    lz77Candidates buf X pos la =
      ((List.range buf.length).filter
        (fun i => decide (buf.getD i 0 = X.getD pos 0))).map
        (fun i => (buf.length - i - 1, lz77MatchLen buf X i pos la)) := by
  unfold lz77Candidates
  generalize List.range buf.length = l
  induction l with
  | nil => rfl
  | cons a r ih =>
    by_cases h : buf.getD a 0 = X.getD pos 0
    · simp [h, ih, -List.getD_eq_getElem?_getD]
    · simp [h, ih, -List.getD_eq_getElem?_getD]

/-- The candidate list is empty exactly when no window byte matches the
current input byte. -/
theorem lz77Candidates_empty_iff (buf X : List Nat) (pos la : Nat) :
    lz77Candidates buf X pos la = [] ↔
      ∀ i, i < buf.length → buf.getD i 0 ≠ X.getD pos 0 := by
  rw [lz77Candidates_eq]
  constructor
  · intro h i hi hbyte
    have hmem : i ∈ (List.range buf.length).filter
        (fun i => decide (buf.getD i 0 = X.getD pos 0)) :=
      List.mem_filter.2 ⟨List.mem_range.2 hi, by simpa using hbyte⟩
    rw [List.map_eq_nil_iff.1 h] at hmem
    exact absurd hmem (List.not_mem_nil i)
  · intro h
    rw [List.map_eq_nil_iff]
    rw [List.filter_eq_nil_iff]
    intro i hi
    simpa using h i (List.mem_range.1 hi)

/-- The selected candidate of `_find_match`, when the window has at least
one byte matching `input[position]`: a candidate start of maximal match
length, the earliest-scanned (smallest index, most distant offset) among
ties, whose pair the end-of-input adjustment is applied to. -/
theorem lz77FindMatch_winner (buf X : List Nat) (pos la i : Nat)
    (hi : i < buf.length) (hbyte : buf.getD i 0 = X.getD pos 0) :
    ∃ iw, iw < buf.length ∧ buf.getD iw 0 = X.getD pos 0 ∧
      (∀ j, j < buf.length → buf.getD j 0 = X.getD pos 0 →
        lz77MatchLen buf X j pos la ≤ lz77MatchLen buf X iw pos la) ∧
      (∀ j, j < iw → buf.getD j 0 = X.getD pos 0 →
        lz77MatchLen buf X j pos la < lz77MatchLen buf X iw pos la) ∧
      lz77FindMatch buf X pos la =
        (if X.length = pos + lz77MatchLen buf X iw pos la then
          (buf.length - iw - 1, lz77MatchLen buf X iw pos la - 1, X.getD (X.length - 1) 0)
        else
          (buf.length - iw - 1, lz77MatchLen buf X iw pos la,
            X.getD (pos + lz77MatchLen buf X iw pos la) 0)) := by
  set idxs := (List.range buf.length).filter
    (fun i => decide (buf.getD i 0 = X.getD pos 0)) with hidxs
  have hmemidxs : ∀ j, j ∈ idxs ↔ j < buf.length ∧ buf.getD j 0 = X.getD pos 0 := by
    intro j
    rw [hidxs, List.mem_filter, List.mem_range]
    simp
  have hpw : idxs.Pairwise (· < ·) :=
    List.Pairwise.filter _ (List.pairwise_lt_range buf.length)
  cases hcons : idxs with
  | nil =>
    have := (hmemidxs i).2 ⟨hi, hbyte⟩
    rw [hcons] at this
    exact absurd this (List.not_mem_nil i)
  | cons i0 is' =>
    rw [hcons] at hpw
    obtain ⟨iw, hmem, heq, hmax, hfirst⟩ :=
      listMaxBySnd_spec (fun i => (buf.length - i - 1, lz77MatchLen buf X i pos la)) is' i0 hpw
    have hiwmem : iw ∈ idxs := by
      rw [hcons]
      exact hmem
    obtain ⟨hiwlt, hiwbyte⟩ := (hmemidxs iw).1 hiwmem
    refine ⟨iw, hiwlt, hiwbyte, ?_, ?_, ?_⟩
    · intro j hj hjb
      have hjmem : j ∈ i0 :: is' := by
        rw [← hcons]
        exact (hmemidxs j).2 ⟨hj, hjb⟩
      exact hmax j hjmem
    · intro j hj hjb
      have hjlt : j < buf.length := by omega
      have hjmem : j ∈ i0 :: is' := by
        rw [← hcons]
        exact (hmemidxs j).2 ⟨hjlt, hjb⟩
      exact hfirst j hjmem hj
    · unfold lz77FindMatch
      rw [lz77Candidates_eq, ← hidxs, hcons]
      simp only [List.map_cons]
      rw [heq]

/-- Claim C7: `_find_match` picks, among the window starts whose byte
matches `input[position]`, one of maximal match length, favoring the
earliest-scanned start (smallest window index, hence the most distant
offset `len(buffer) - i - 1`) on ties; the end-of-input shortening is
applied to that winner; and when no window byte matches at all the token
is `(0, 0, input[position])`. -/
theorem lz77_findmatch_selection (buf X : List Nat) (pos la : Nat) :
    ((∀ i, i < buf.length → buf.getD i 0 ≠ X.getD pos 0) →
      lz77FindMatch buf X pos la = (0, 0, X.getD pos 0)) ∧
    (∀ i, i < buf.length → buf.getD i 0 = X.getD pos 0 →
      ∃ iw, iw < buf.length ∧ buf.getD iw 0 = X.getD pos 0 ∧
        (∀ j, j < buf.length → buf.getD j 0 = X.getD pos 0 →
          lz77MatchLen buf X j pos la ≤ lz77MatchLen buf X iw pos la) ∧
        (∀ j, j < iw → buf.getD j 0 = X.getD pos 0 →
          lz77MatchLen buf X j pos la < lz77MatchLen buf X iw pos la) ∧
        lz77FindMatch buf X pos la =
          (if X.length = pos + lz77MatchLen buf X iw pos la then
            (buf.length - iw - 1, lz77MatchLen buf X iw pos la - 1, X.getD (X.length - 1) 0)
          else
            (buf.length - iw - 1, lz77MatchLen buf X iw pos la,
              X.getD (pos + lz77MatchLen buf X iw pos la) 0))) := by
  constructor
  · intro h
    unfold lz77FindMatch
    rw [(lz77Candidates_empty_iff buf X pos la).2 h]
  · intro i hi hbyte
    exact lz77FindMatch_winner buf X pos la i hi hbyte

/-- Claim C7, witness: the selection property instantiated at window
`"ab"`, input `"ba"`, position 0, lookahead 4. -/
theorem lz77_findmatch_selection_witness :
    ((∀ i, i < List.length [97, 98] →
        List.getD [97, 98] i 0 ≠ List.getD [98, 97] 0 0) →
      lz77FindMatch [97, 98] [98, 97] 0 4 = (0, 0, List.getD [98, 97] 0 0)) ∧
    (∀ i, i < List.length [97, 98] → List.getD [97, 98] i 0 = List.getD [98, 97] 0 0 →
      ∃ iw, iw < List.length [97, 98] ∧
        List.getD [97, 98] iw 0 = List.getD [98, 97] 0 0 ∧
        (∀ j, j < List.length [97, 98] → List.getD [97, 98] j 0 = List.getD [98, 97] 0 0 →
          lz77MatchLen [97, 98] [98, 97] j 0 4 ≤ lz77MatchLen [97, 98] [98, 97] iw 0 4) ∧
        (∀ j, j < iw → List.getD [97, 98] j 0 = List.getD [98, 97] 0 0 →
          lz77MatchLen [97, 98] [98, 97] j 0 4 < lz77MatchLen [97, 98] [98, 97] iw 0 4) ∧
        lz77FindMatch [97, 98] [98, 97] 0 4 =
          (if List.length [98, 97] = 0 + lz77MatchLen [97, 98] [98, 97] iw 0 4 then
            (List.length [97, 98] - iw - 1, lz77MatchLen [97, 98] [98, 97] iw 0 4 - 1,
              List.getD [98, 97] (List.length [98, 97] - 1) 0)
          else
            (List.length [97, 98] - iw - 1, lz77MatchLen [97, 98] [98, 97] iw 0 4,
              List.getD [98, 97] (0 + lz77MatchLen [97, 98] [98, 97] iw 0 4) 0))) :=
  lz77_findmatch_selection [97, 98] [98, 97] 0 4

/-! ## Claim C2: LZ77 round-trip -/

/-- Every byte counted by the match-length loop really matched: the loop
only advances past positions where the (cyclic) window byte equals the
input byte and the input has not ended. -/
theorem lz77MatchLenGo_matched (buf X : List Nat) (i pos la : Nat) :
    ∀ k l, l + k = la →
      (∀ j, j < l → pos + j < X.length ∧
        buf.getD (i + j % (buf.length - i)) 0 = X.getD (pos + j) 0) →
      ∀ j, j < lz77MatchLenGo buf X i pos la l k →
        pos + j < X.length ∧
        buf.getD (i + j % (buf.length - i)) 0 = X.getD (pos + j) 0 := by
  intro k
  induction k with
  | zero =>
    intro l hl hinv j hj
    have : lz77MatchLenGo buf X i pos la l 0 = la - 1 := rfl
    rw [this] at hj
    exact hinv j (by omega)
  | succ k ih =>
    intro l hl hinv j hj
    rw [lz77MatchLenGo] at hj
    by_cases h1 : X.length ≤ pos + l
    · rw [if_pos h1] at hj
      exact hinv j hj
    · by_cases h2 : buf.getD (i + l % (buf.length - i)) 0 ≠ X.getD (pos + l) 0
      · rw [if_neg h1, if_pos h2] at hj
        exact hinv j hj
      · rw [if_neg h1, if_neg h2] at hj
        refine ih (l + 1) (by omega) ?_ j hj
        intro j2 hj2
        by_cases hj2l : j2 < l
        · exact hinv j2 hj2l
        · have hj2eq : j2 = l := by omega
          subst hj2eq
          push_neg at h2
          exact ⟨by omega, h2⟩

/-- Matched-byte property of the reported match length. -/
theorem lz77MatchLen_matched (buf X : List Nat) (i pos la : Nat) :
    ∀ j, j < lz77MatchLen buf X i pos la →
      pos + j < X.length ∧
      buf.getD (i + j % (buf.length - i)) 0 = X.getD (pos + j) 0 :=
  lz77MatchLenGo_matched buf X i pos la la 0 (by omega) (fun j hj => absurd hj (by omega))

/-- The reported match length never exceeds `lookahead_size - 1`. -/
theorem lz77MatchLen_le (buf X : List Nat) (i pos la : Nat) :
    lz77MatchLen buf X i pos la ≤ la - 1 := by
  have h := lz77MatchLenGo_eq buf X i pos la la 0 (by omega)
  rw [lz77MatchLen, h]
  omega

/-- A slice of the input written as an indexed map. -/
theorem lz77_take_drop_as_map (X : List Nat) (i l : Nat) (h : i + l ≤ X.length) :
    (X.drop i).take l = (List.range l).map (fun j => X.getD (i + j) 0) := by
  refine List.ext_getElem? (fun n => ?_)
  by_cases hn : n < l
  · rw [List.getElem?_take_of_lt hn, List.getElem?_drop]
    have hin : i + n < X.length := by omega
    have h1 : ((List.range l).map (fun j => X.getD (i + j) 0))[n]? =
        some (X.getD (i + n) 0) := by
      rw [List.getElem?_map]
      rw [List.getElem?_range hn]
      rfl
    rw [h1, List.getElem?_eq_getElem hin]
    congr 1
    exact (List.getD_eq_getElem X 0 hin).symm
  · have h1 : ((X.drop i).take l)[n]? = none := by
      rw [List.getElem?_eq_none_iff]
      simp only [List.length_take, List.length_drop]
      omega
    have h2 : ((List.range l).map (fun j => X.getD (i + j) 0))[n]? = none := by
      rw [List.getElem?_eq_none_iff]
      simp only [List.length_map, List.length_range]
      omega
    rw [h1, h2]

/-- Splitting the serialized token stream back into 3-byte records
recovers the token list. -/
theorem lz77Chunks3_flatten (ts : List (Nat × Nat × Nat)) :
    lz77Chunks3 ((ts.map (fun t => [t.1, t.2.1, t.2.2])).flatten) = some ts := by
  induction ts with
  | nil => rfl
  | cons t rest ih =>
    obtain ⟨a, b, c⟩ := t
    show lz77Chunks3 (a :: b :: c :: (rest.map (fun t => [t.1, t.2.1, t.2.2])).flatten) =
      some ((a, b, c) :: rest)
    rw [lz77Chunks3, ih]
    rfl

/-- The cyclic copy performed by `LZ77.decompress` on a token `(o, l, ·)`
reproduces the matched input run: slicing the already-reconstructed
output `X.take i` at `[-o-1 : i-o-1+l]` and cycling it `l` steps yields
`X[i : i+l]`, because the window the encoder matched against is exactly
the tail of `X.take i` and the cycle period equals the encoder's modulo
period `o + 1`. -/
theorem lz77_decode_copy (X : List Nat) (bs i o l i0 : Nat)
    (hil : i ≤ X.length) (hiln : i + l ≤ X.length)
    (hi0 : i0 < ((X.take i).drop (i - bs)).length)
    (ho : o = ((X.take i).drop (i - bs)).length - i0 - 1)
    (hmatch : ∀ j, j < l →
      ((X.take i).drop (i - bs)).getD
        (i0 + j % (((X.take i).drop (i - bs)).length - i0)) 0 = X.getD (i + j) 0) :
    cycleTake l
      (pySlice (-(o : Int) - 1) (((X.take i).length : Int) - (o : Int) - 1 + (l : Int))
        (X.take i)) = (X.drop i).take l := by
  set D := X.take i with hD
  set buf := D.drop (i - bs) with hbuf
  have hDlen : D.length = i := by
    rw [hD, List.length_take]
    omega
  have hL : buf.length = i - (i - bs) := by
    rw [hbuf, List.length_drop, hDlen]
  have hoi : o + 1 ≤ buf.length := by
    omega
  have hobi : o + 1 ≤ i := by
    omega
  have hpart : pySlice (-(o : Int) - 1) ((D.length : Int) - (o : Int) - 1 + (l : Int)) D =
      (buf.drop i0).take (min l (o + 1)) := by
    unfold pySlice
    have hb1 : pyBound D.length (-(o : Int) - 1) = i - o - 1 := by
      unfold pyBound
      rw [if_pos (by omega), hDlen]
      omega
    have hb2 : pyBound D.length ((D.length : Int) - (o : Int) - 1 + (l : Int)) =
        min (i - o - 1 + l) i := by
      unfold pyBound
      rw [if_neg (by rw [hDlen]; omega), hDlen]
      omega
    rw [hb1, hb2, List.drop_take]
    have he : min (i - o - 1 + l) i - (i - o - 1) = min l (o + 1) := by
      omega
    rw [he]
    have hdd : buf.drop i0 = D.drop ((i - bs) + i0) := by
      rw [hbuf]
      exact List.drop_drop i0 (i - bs) D
    have hidx : (i - bs) + i0 = i - o - 1 := by
      omega
    rw [hdd, hidx]
  rw [hpart]
  by_cases hl0 : l = 0
  · subst hl0
    simp [cycleTake]
  · have hplen : ((buf.drop i0).take (min l (o + 1))).length = min l (o + 1) := by
      rw [List.length_take, List.length_drop]
      omega
    have hpne : ¬ ((buf.drop i0).take (min l (o + 1))).length = 0 := by
      omega
    rw [cycleTake, if_neg hpne]
    rw [lz77_take_drop_as_map X i l hiln]
    refine List.map_congr_left ?_
    intro j hj
    have hjl : j < l := List.mem_range.1 hj
    rw [hplen]
    have hjp : j % min l (o + 1) = j % (o + 1) := by
      rcases Nat.le_total l (o + 1) with hcase | hcase
      · have hm : min l (o + 1) = l := by omega
        rw [hm, Nat.mod_eq_of_lt hjl, Nat.mod_eq_of_lt (by omega)]
      · have hm : min l (o + 1) = o + 1 := by omega
        rw [hm]
    rw [hjp]
    have hidxlt : j % (o + 1) < min l (o + 1) := by
      rcases Nat.le_total l (o + 1) with hcase | hcase
      · rw [Nat.mod_eq_of_lt (by omega)]
        omega
      · have := Nat.mod_lt j (y := o + 1) (by omega)
        omega
    have hgetD : ((buf.drop i0).take (min l (o + 1))).getD (j % (o + 1)) 0 =
        buf.getD (i0 + j % (o + 1)) 0 := by
      rw [List.getD_eq_getElem?_getD, List.getD_eq_getElem?_getD,
        List.getElem?_take_of_lt hidxlt, List.getElem?_drop]
    rw [hgetD]
    have hper : buf.length - i0 = o + 1 := by
      omega
    have := hmatch j hjl
    rw [hper] at this
    exact this

/-- One compress iteration's window update equals the canonical window of
the new position: the last `min (i', bs)` bytes of the consumed input
prefix. -/
theorem lz77_buffer_next (X : List Nat) (bs i l : Nat) (hbs : 1 ≤ bs)
    (hil : i + l + 1 ≤ X.length) :
    (if bs < ((X.take i).drop (i - bs) ++ (X.drop i).take (l + 1)).length then
      pySlice (-(bs : Int))
        ((((X.take i).drop (i - bs) ++ (X.drop i).take (l + 1)).length : Int))
        ((X.take i).drop (i - bs) ++ (X.drop i).take (l + 1))
    else (X.take i).drop (i - bs) ++ (X.drop i).take (l + 1)) =
    (X.take (i + l + 1)).drop (i + l + 1 - bs) := by
  have hb : (X.take i).drop (i - bs) ++ (X.drop i).take (l + 1) =
      (X.take (i + l + 1)).drop (i - bs) := by
    have h1 : X.take (i + (l + 1)) = X.take i ++ (X.drop i).take (l + 1) :=
      List.take_add X i (l + 1)
    rw [show i + l + 1 = i + (l + 1) by omega, h1,
      List.drop_append_of_le_length (by rw [List.length_take]; omega)]
  rw [hb]
  set T := X.take (i + l + 1) with hT
  have hTlen : T.length = i + l + 1 := by
    rw [hT, List.length_take]
    omega
  have hblen : (T.drop (i - bs)).length = i + l + 1 - (i - bs) := by
    rw [List.length_drop]
    omega
  by_cases hc : bs < (T.drop (i - bs)).length
  · rw [if_pos hc]
    unfold pySlice
    have hb1 : pyBound (T.drop (i - bs)).length (-(bs : Int)) =
        (T.drop (i - bs)).length - bs := by
      unfold pyBound
      rw [if_pos (by omega)]
      omega
    have hb2 : pyBound (T.drop (i - bs)).length (((T.drop (i - bs)).length : Int)) =
        (T.drop (i - bs)).length := by
      unfold pyBound
      rw [if_neg (by omega)]
      omega
    rw [hb1, hb2, List.take_length, List.drop_drop]
    congr 1
    omega
  · rw [if_neg hc]
    have heq : i - bs = i + l + 1 - bs := by
      omega
    rw [heq]

/-- Semantic facts about the emitted token `(o, l, c)` of `_find_match`:
the literal is the input byte right after the copied run, the run ends
strictly before the input's end, the length respects the lookahead cap,
and — unless the token is the no-match fallback `(0, 0, ·)` — the offset
designates a window start whose cyclic extension matches the input
run byte for byte. -/
theorem lz77FindMatch_step (buf X : List Nat) (pos la : Nat) (hpos : pos < X.length) :
    (lz77FindMatch buf X pos la).2.2 =
      X.getD (pos + (lz77FindMatch buf X pos la).2.1) 0 ∧
    pos + (lz77FindMatch buf X pos la).2.1 < X.length ∧
    (lz77FindMatch buf X pos la).2.1 ≤ la - 1 ∧
    (((lz77FindMatch buf X pos la).1 = 0 ∧ (lz77FindMatch buf X pos la).2.1 = 0) ∨
      ∃ i0, i0 < buf.length ∧ (lz77FindMatch buf X pos la).1 = buf.length - i0 - 1 ∧
        ∀ j, j < (lz77FindMatch buf X pos la).2.1 →
          buf.getD (i0 + j % (buf.length - i0)) 0 = X.getD (pos + j) 0) := by
  cases hcands : lz77Candidates buf X pos la with
  | nil =>
    have ht : lz77FindMatch buf X pos la = (0, 0, X.getD pos 0) := by
      unfold lz77FindMatch
      rw [hcands]
    rw [ht]
    refine ⟨by simp, by simpa using hpos, by simp, Or.inl ⟨rfl, rfl⟩⟩
  | cons m ms =>
    have hmmem : m ∈ lz77Candidates buf X pos la := by
      rw [hcands]
      exact List.mem_cons_self m ms
    rw [lz77Candidates_eq] at hmmem
    obtain ⟨i, himem, _⟩ := List.mem_map.1 hmmem
    obtain ⟨hirange, hibyte⟩ := List.mem_filter.1 himem
    have hi : i < buf.length := List.mem_range.1 hirange
    have hib : buf.getD i 0 = X.getD pos 0 := by
      simpa using hibyte
    obtain ⟨iw, hiwlt, hiwbyte, _, _, hteq⟩ :=
      lz77FindMatch_winner buf X pos la i hi hib
    have hmatched := lz77MatchLen_matched buf X iw pos la
    have hwle : lz77MatchLen buf X iw pos la ≤ la - 1 := lz77MatchLen_le buf X iw pos la
    have hwposle : pos + lz77MatchLen buf X iw pos la ≤ X.length := by
      cases hw : lz77MatchLen buf X iw pos la with
      | zero => omega
      | succ w' =>
        have := (hmatched w' (by omega)).1
        omega
    by_cases hadj : X.length = pos + lz77MatchLen buf X iw pos la
    · rw [if_pos hadj] at hteq
      rw [hteq]
      have hw1 : 1 ≤ lz77MatchLen buf X iw pos la := by
        omega
      refine ⟨?_, by simp; omega, by simp; omega, ?_⟩
      · show X.getD (X.length - 1) 0 = X.getD (pos + (lz77MatchLen buf X iw pos la - 1)) 0
        congr 1
        omega
      · refine Or.inr ⟨iw, hiwlt, rfl, ?_⟩
        intro j hj
        exact (hmatched j (by simp at hj; omega)).2
    · rw [if_neg hadj] at hteq
      rw [hteq]
      refine ⟨rfl, by simp; omega, by simpa using hwle, ?_⟩
      refine Or.inr ⟨iw, hiwlt, rfl, ?_⟩
      intro j hj
      exact (hmatched j (by simpa using hj)).2

/-- `cycleTake` of zero elements is empty. -/
theorem cycleTake_zero (part : List Nat) : cycleTake 0 part = [] := by
  unfold cycleTake
  split
  · rfl
  · rfl

/-- Main invariant of the LZ77 round-trip: running the decoder over the
tokens the encoder emits from position `i` — with the window equal to the
last `bs` bytes of the consumed prefix — extends the reconstructed prefix
`X.take i` to exactly `X`; and every emitted token's three components fit
in one byte. -/
theorem lz77_main (bs ls : Nat) (X : List Nat) (hbs1 : 1 ≤ bs) (hbs2 : bs ≤ 256)
    (hls : ls ≤ 256) (hX : ∀ b ∈ X, b < 256) :
    ∀ fuel i, X.length - i ≤ fuel → i ≤ X.length →
      lz77DecompressCore (lz77CompressGo bs ls X fuel i ((X.take i).drop (i - bs)))
        (X.take i) = X ∧
      ∀ t ∈ lz77CompressGo bs ls X fuel i ((X.take i).drop (i - bs)),
        t.1 < 256 ∧ t.2.1 < 256 ∧ t.2.2 < 256 := by
  intro fuel
  induction fuel with
  | zero =>
    intro i hf hi
    have hieq : i = X.length := by omega
    refine ⟨?_, ?_⟩
    · show X.take i = X
      rw [hieq]
      exact List.take_length X
    · intro t ht
      exact absurd ht (List.not_mem_nil t)
  | succ fuel ih =>
    intro i hf hi
    by_cases hin : i < X.length
    · rcases hteq : lz77FindMatch ((X.take i).drop (i - bs)) X i ls with ⟨o, l, c⟩
      obtain ⟨hc, hposl, hlle, hcases⟩ :=
        lz77FindMatch_step ((X.take i).drop (i - bs)) X i ls hin
      rw [hteq] at hc hposl hlle hcases
      simp only at hc hposl hlle hcases
      have hgo : lz77CompressGo bs ls X (fuel + 1) i ((X.take i).drop (i - bs)) =
          (o, l, c) :: lz77CompressGo bs ls X fuel (i + l + 1)
            ((X.take (i + l + 1)).drop (i + l + 1 - bs)) := by
        rw [lz77CompressGo, if_pos hin, hteq]
        simp only
        rw [lz77_buffer_next X bs i l hbs1 (by omega)]
      have hcopy : cycleTake l
          (pySlice (-(o : Int) - 1)
            (((X.take i).length : Int) - (o : Int) - 1 + (l : Int)) (X.take i)) =
          (X.drop i).take l := by
        rcases hcases with ⟨ho0, hl0⟩ | ⟨i0, hi0, ho, hmatch⟩
        · subst hl0
          rw [cycleTake_zero]
          rfl
        · exact lz77_decode_copy X bs i o l i0 (by omega) (by omega) hi0
            (by omega) hmatch
      have haccnext : (X.take i ++ cycleTake l
          (pySlice (-(o : Int) - 1)
            (((X.take i).length : Int) - (o : Int) - 1 + (l : Int)) (X.take i))) ++ [c] =
          X.take (i + l + 1) := by
        rw [hcopy]
        have h1 : X.take i ++ (X.drop i).take l = X.take (i + l) :=
          (List.take_add X i l).symm
        have h2 : X.take (i + l + 1) = X.take (i + l) ++ (X.drop (i + l)).take 1 :=
          List.take_add X (i + l) 1
        have h3 : (X.drop (i + l)).take 1 = [X.getD (i + l) 0] := by
          rw [lz77_take_drop_as_map X (i + l) 1 (by omega)]
          rfl
        rw [h1, h2, h3, hc]
      have hstep : lz77DecompressCore
          ((o, l, c) :: lz77CompressGo bs ls X fuel (i + l + 1)
            ((X.take (i + l + 1)).drop (i + l + 1 - bs))) (X.take i) =
          lz77DecompressCore
            (lz77CompressGo bs ls X fuel (i + l + 1)
              ((X.take (i + l + 1)).drop (i + l + 1 - bs)))
            ((X.take i ++ cycleTake l
              (pySlice (-(o : Int) - 1)
                (((X.take i).length : Int) - (o : Int) - 1 + (l : Int)) (X.take i))) ++ [c]) := by
        rfl
      obtain ⟨ihcore, ihbound⟩ := ih (i + l + 1) (by omega) (by omega)
      refine ⟨?_, ?_⟩
      · rw [hgo, hstep, haccnext]
        exact ihcore
      · intro t ht
        rw [hgo] at ht
        rcases List.mem_cons.1 ht with rfl | ht2
        · refine ⟨?_, by show l < 256; omega, ?_⟩
          · rcases hcases with ⟨ho0, _⟩ | ⟨i0, hi0, ho, _⟩
            · simp [ho0]
            · have hbuflen : ((X.take i).drop (i - bs)).length ≤ bs := by
                rw [List.length_drop, List.length_take]
                omega
              show o < 256
              omega
          · show c < 256
            rw [hc]
            have hmem : X.getD (i + l) 0 ∈ X := by
              rw [List.getD_eq_getElem X 0 hposl]
              exact List.getElem_mem hposl
            exact hX _ hmem
        · exact ihbound t ht2
    · have hieq : i = X.length := by omega
      have hgo : lz77CompressGo bs ls X (fuel + 1) i ((X.take i).drop (i - bs)) = [] := by
        rw [lz77CompressGo, if_neg hin]
      refine ⟨?_, ?_⟩
      · rw [hgo]
        show X.take i = X
        rw [hieq]
        exact List.take_length X
      · intro t ht
        rw [hgo] at ht
        exact absurd ht (List.not_mem_nil t)

/-- Claim C2: the sliding-window codec round-trips for every
`buffer_size` and `lookahead_size` in `{4, 50, 256}`: serializing the
token stream `LZ77.compress` produces on any nonempty byte sequence
(including inputs shorter than the window) and feeding it to
`LZ77.decompress` returns exactly the input. -/
theorem lz77_roundtrip_params (bs ls : Nat) (X : List Nat)
    (hbs : bs = 4 ∨ bs = 50 ∨ bs = 256) (hls : ls = 4 ∨ ls = 50 ∨ ls = 256)
    (hne : X ≠ []) (hX : ∀ b ∈ X, b < 256) :
    (lz77Serialize (lz77Compress bs ls X)).bind lz77Decompress = some X := by
  have hbs1 : 1 ≤ bs := by
    rcases hbs with rfl | rfl | rfl <;> omega
  have hbs2 : bs ≤ 256 := by
    rcases hbs with rfl | rfl | rfl <;> omega
  have hls2 : ls ≤ 256 := by
    rcases hls with rfl | rfl | rfl <;> omega
  obtain ⟨hcore, hbound⟩ :=
    lz77_main bs ls X hbs1 hbs2 hls2 hX X.length 0 (by omega) (by omega)
  have hbuf0 : ((X.take 0).drop (0 - bs)) = ([] : List Nat) := by
    simp
  rw [hbuf0] at hcore hbound
  have hgo0 : lz77Compress bs ls X = lz77CompressGo bs ls X X.length 0 [] := rfl
  have hall : (lz77Compress bs ls X).all
      (fun t => t.1 < 256 && t.2.1 < 256 && t.2.2 < 256) = true := by
    rw [List.all_eq_true]
    intro t ht
    rw [hgo0] at ht
    obtain ⟨h1, h2, h3⟩ := hbound t ht
    simp only [Bool.and_eq_true, decide_eq_true_eq]
    exact ⟨⟨h1, h2⟩, h3⟩
  have hser : lz77Serialize (lz77Compress bs ls X) =
      some (((lz77Compress bs ls X).map (fun t => [t.1, t.2.1, t.2.2])).flatten) := by
    unfold lz77Serialize
    rw [if_pos hall]
  rw [hser]
  have hdec : lz77Decompress
      (((lz77Compress bs ls X).map (fun t => [t.1, t.2.1, t.2.2])).flatten) =
      some (lz77DecompressCore (lz77Compress bs ls X) []) := by
    unfold lz77Decompress
    rw [lz77Chunks3_flatten]
    rfl
  show lz77Decompress
      (((lz77Compress bs ls X).map (fun t => [t.1, t.2.1, t.2.2])).flatten) = some X
  rw [hdec]
  exact congrArg some hcore

/-- Claim C2, witness: the round-trip at `buffer_size = lookahead_size =
4` on the concrete input `"aba"`. -/
theorem lz77_roundtrip_params_witness :
    (lz77Serialize (lz77Compress 4 4 [97, 98, 97])).bind lz77Decompress =
      some [97, 98, 97] :=
  lz77_roundtrip_params 4 4 [97, 98, 97] (Or.inl rfl) (Or.inl rfl)
    (by decide) (by decide)

end S2P
